import Mathlib

/-!
Verification of the RSA demo and Shor-style key-recovery pipeline
(`rsa.py`, `shor_attack.py`, `main_app.py`).

The Python source is shallowly embedded:
* Python integers become `Nat` (with `Int` at the single spot where the
  source can form a negative number, namely `gcd(x - 1, N)`).
* `random.choice` / `random.randint` choices and the quantum period oracle
  `find_period_quantum` become explicit inputs: each retry iteration of
  `shor_classical` consumes one `Trial` carrying the sampled base and the
  oracle's reply for that iteration.
* Python `None` becomes `Option.none`; a Python `raise` becomes the
  `Except.error` case of the corresponding error type.
* Unbounded loops (`while` in `generate_rsa_key`) take an explicit fuel
  parameter and return `none` on exhaustion; a run of the Python function
  that terminates corresponds to a `some` result for sufficient fuel.

Helper arithmetic (`gcd`, `isqrt`) is defined by structural recursion so
the kernel can evaluate it, and is proved equal to `Nat.gcd` / `Nat.sqrt`.
-/

/-- Fuel-driven Euclidean algorithm; `gcdFuel fuel x y` computes
`Nat.gcd x y` whenever `x < fuel`. -/
def gcdFuel : Nat → Nat → Nat → Nat
  | 0, _, y => y
  | _ + 1, 0, y => y
  | fuel + 1, x + 1, y => gcdFuel fuel (y % (x + 1)) (x + 1)

/-- Embedding of Python `math.gcd` on naturals (executable by the kernel). -/
def math_gcd (a b : Nat) : Nat := gcdFuel (a + 1) a b

theorem gcdFuel_eq_gcd (fuel : Nat) : ∀ x y : Nat, x < fuel → gcdFuel fuel x y = Nat.gcd x y := by
  induction fuel with
  | zero => intro x y h; omega
  | succ f ih =>
    intro x y h
    match x with
    | 0 => simp [gcdFuel]
    | x + 1 =>
      have hx : y % (x + 1) < f := by
        have := Nat.mod_lt y (show 0 < x + 1 by omega)
        omega
      rw [gcdFuel, ih _ _ hx, Nat.gcd_succ]

theorem math_gcd_eq_gcd (a b : Nat) : math_gcd a b = Nat.gcd a b :=
  gcdFuel_eq_gcd (a + 1) a b (Nat.lt_succ_self a)

/-- Embedding of Python `math.gcd` on (possibly negative) integers:
`math.gcd` returns the gcd of the absolute values, as does `Int.gcd`. -/
def int_gcd (a b : Int) : Nat := math_gcd a.natAbs b.natAbs

theorem int_gcd_eq_gcd (a b : Int) : int_gcd a b = Int.gcd a b :=
  math_gcd_eq_gcd a.natAbs b.natAbs

theorem int_gcd_sub_one (x N : Nat) (h : 1 ≤ x) :
    int_gcd ((x : Int) - 1) (N : Int) = Nat.gcd (x - 1) N := by
  unfold int_gcd
  rw [math_gcd_eq_gcd]
  have h1 : ((x : Int) - 1) = ((x - 1 : Nat) : Int) := by omega
  rw [h1, Int.natAbs_ofNat, Int.natAbs_ofNat]

/-- Fuel-driven linear search for the integer square root:
increments `d` while `(d+1)^2 ≤ n`. -/
def isqrtAux (n : Nat) : Nat → Nat → Nat
  | 0, d => d
  | fuel + 1, d => if (d + 1) * (d + 1) ≤ n then isqrtAux n fuel (d + 1) else d

/-- Embedding of Python `int(n**0.5)` for the classroom-scale inputs of
`is_prime` (where the float computation is exact): the integer square root. -/
def isqrt (n : Nat) : Nat := isqrtAux n n 0

theorem isqrtAux_eq_sqrt (n : Nat) :
    ∀ fuel d : Nat, d * d ≤ n → Nat.sqrt n ≤ d + fuel → isqrtAux n fuel d = Nat.sqrt n := by
  intro fuel
  induction fuel with
  | zero =>
    intro d hd hs
    have hle : d ≤ Nat.sqrt n := Nat.le_sqrt.mpr hd
    simp only [isqrtAux]
    omega
  | succ f ih =>
    intro d hd hs
    rw [isqrtAux]
    by_cases hcase : (d + 1) * (d + 1) ≤ n
    · rw [if_pos hcase]
      exact ih (d + 1) hcase (by omega)
    · rw [if_neg hcase]
      have hle : d ≤ Nat.sqrt n := Nat.le_sqrt.mpr hd
      have hlt : Nat.sqrt n < d + 1 := by
        have := Nat.sqrt_lt.mpr (by omega : n < (d + 1) * (d + 1))
        omega
      omega

theorem isqrt_eq_sqrt (n : Nat) : isqrt n = Nat.sqrt n := by
  unfold isqrt
  exact isqrtAux_eq_sqrt n n 0 (by omega) (by simpa using Nat.sqrt_le_self n)

/-- Loop body of `rsa.modinv`: tries `d, d+1, ...` for `fuel` steps,
returning the first `d` with `(a * d) % m == 1`. -/
def modinvFrom (a m : Nat) : Nat → Nat → Option Nat
  | 0, _ => none
  | fuel + 1, d => if (a * d) % m = 1 then some d else modinvFrom a m fuel (d + 1)

/-- Embedding of `rsa.modinv`: brute-force search for the modular inverse of
`a` modulo `m` over `range(2, m)`, returning `None` when the range is
exhausted. -/
def modinv (a m : Nat) : Option Nat := modinvFrom a m (m - 2) 2

theorem modinvFrom_eq_some (a m : Nat) :
    ∀ fuel d r : Nat, modinvFrom a m fuel d = some r →
      (a * r) % m = 1 ∧ d ≤ r ∧ r < d + fuel ∧
        ∀ d', d ≤ d' → d' < r → (a * d') % m ≠ 1 := by
  intro fuel
  induction fuel with
  | zero => intro d r h; simp [modinvFrom] at h
  | succ f ih =>
    intro d r h
    rw [modinvFrom] at h
    by_cases hc : (a * d) % m = 1
    · rw [if_pos hc] at h
      cases h
      exact ⟨hc, Nat.le_refl d, by omega, fun d' h1 h2 => by omega⟩
    · rw [if_neg hc] at h
      obtain ⟨h1, h2, h3, h4⟩ := ih (d + 1) r h
      refine ⟨h1, by omega, by omega, fun d' hd1 hd2 => ?_⟩
      rcases Nat.eq_or_lt_of_le hd1 with heq | hlt
      · subst heq; exact hc
      · exact h4 d' hlt hd2

theorem modinvFrom_eq_none (a m : Nat) :
    ∀ fuel d : Nat, modinvFrom a m fuel d = none →
      ∀ d', d ≤ d' → d' < d + fuel → (a * d') % m ≠ 1 := by
  intro fuel
  induction fuel with
  | zero => intro d _ d' h1 h2; omega
  | succ f ih =>
    intro d h d' h1 h2
    rw [modinvFrom] at h
    by_cases hc : (a * d) % m = 1
    · rw [if_pos hc] at h; cases h
    · rw [if_neg hc] at h
      rcases Nat.eq_or_lt_of_le h1 with heq | hlt
      · subst heq; exact hc
      · exact ih (d + 1) h d' hlt (by omega)

theorem modinvFrom_isSome (a m : Nat) :
    ∀ fuel d d' : Nat, d ≤ d' → d' < d + fuel → (a * d') % m = 1 →
      (modinvFrom a m fuel d).isSome = true := by
  intro fuel
  induction fuel with
  | zero => intro d d' h1 h2; omega
  | succ f ih =>
    intro d d' h1 h2 h3
    rw [modinvFrom]
    by_cases hc : (a * d) % m = 1
    · rw [if_pos hc]; rfl
    · rw [if_neg hc]
      rcases Nat.eq_or_lt_of_le h1 with heq | hlt
      · subst heq; exact absurd h3 hc
      · exact ih (d + 1) d' hlt (by omega) h3

/-- Embedding of `rsa.is_prime`: `n < 2` is not prime; otherwise trial
division by every `i` in `range(2, int(n**0.5) + 1)`. -/
def is_prime (n : Nat) : Bool :=
  if n < 2 then false
  else (List.range' 2 (isqrt n + 1 - 2)).all fun i => n % i != 0

/-- The prime list built by `generate_rsa_key`:
`[i for i in range(primes_lower, primes_upper) if is_prime(i)]`. -/
def primesInRange (lo hi : Nat) : List Nat :=
  (List.range' lo (hi - lo)).filter fun i => is_prime i

/-- Embedding of `random.choice(l)`: the caller-supplied random draw is an
arbitrary index `i`; on a nonempty list some element is returned (every
element is reachable for a suitable `i`), on an empty list the call fails
(Python raises `IndexError`). -/
def random_choice (l : List Nat) (i : Nat) : Option Nat :=
  l.get? (i % l.length)

/-- The `e`-selection loop of `generate_rsa_key`: starting at `e = 3` and
stepping by 2, return the first `e` with `gcd(e, phi_n) == 1`.  The Python
loop is unbounded; `fuel` bounds the embedding, with `none` standing for a
run that has not terminated within `fuel` steps. -/
def chooseE (phi : Nat) : Nat → Nat → Option Nat
  | 0, _ => none
  | fuel + 1, e => if math_gcd e phi = 1 then some e else chooseE phi fuel (e + 2)

/-- Failure mode of the embedded `generate_rsa_key`:
`choiceFromEmptyList` models the `IndexError` that `random.choice` raises on
an empty candidate list (the spec calls this case `ConfigurationError`);
`outOfFuel` is the embedding artifact for a non-terminating `e` search. -/
inductive KeygenError where
  | choiceFromEmptyList
  | outOfFuel
deriving DecidableEq

/-- The part of `generate_rsa_key` that runs after the two random primes
have been picked: `n = p * q`, `phi_n = (p - 1) * (q - 1)`, the smallest
odd `e ≥ 3` coprime to `phi_n`, and `d = modinv(e, phi_n)`. -/
def rsa_from_primes (p q fuel : Nat) : Except KeygenError (Nat × Nat × Option Nat) :=
  let phi_n := (p - 1) * (q - 1)
  match chooseE phi_n fuel 3 with
  | none => .error .outOfFuel
  | some e => .ok (p * q, e, modinv e phi_n)

/-- Embedding of `rsa.generate_rsa_key`: build the primes in
`[primes_lower, primes_upper)`, pick `p` and a distinct `q` by
`random.choice` (draws `i`, `j` supplied as inputs), then build the key.
The returned private exponent is `Option Nat` because `modinv` can
return `None`. -/
def generate_rsa_key (primes_lower primes_upper i j fuel : Nat) :
    Except KeygenError (Nat × Nat × Option Nat) :=
  let primes := primesInRange primes_lower primes_upper
  match random_choice primes i with
  | none => .error .choiceFromEmptyList
  | some p =>
    match random_choice (primes.filter fun x => x ≠ p) j with
    | none => .error .choiceFromEmptyList
    | some q => rsa_from_primes p q fuel

/-- Embedding of `rsa.encrypt_message`: a message is its list of character
code points (`ord`); each becomes `pow(ord(c), e, n)`. -/
def encrypt_message (message : List Nat) (n e : Nat) : List Nat :=
  message.map fun c => c ^ e % n

/-- Embedding of `rsa.decrypt_message`: each ciphertext integer becomes
`chr(pow(c, d, n))`; the result is the list of recovered code points. -/
def decrypt_message (cipher : List Nat) (n d : Nat) : List Nat :=
  cipher.map fun c => c ^ d % n

theorem is_prime_iff (n : Nat) : is_prime n = true ↔ Nat.Prime n := by
  rw [Nat.prime_def_le_sqrt]
  unfold is_prime
  by_cases h2 : n < 2
  · simp [h2]
  · rw [if_neg h2]
    simp only [List.all_eq_true, List.mem_range', bne_iff_ne, ne_eq]
    constructor
    · intro h
      refine ⟨by omega, fun m hm2 hms hdvd => ?_⟩
      have hsq : 1 ≤ isqrt n := by
        rw [isqrt_eq_sqrt]
        have : 1 * 1 ≤ n := by omega
        exact Nat.le_sqrt.mpr this
      have hmem : ∃ i < isqrt n + 1 - 2, m = 2 + 1 * i := by
        refine ⟨m - 2, ?_, by omega⟩
        rw [isqrt_eq_sqrt]
        rw [isqrt_eq_sqrt] at hsq
        omega
      have := h m hmem
      rw [Nat.dvd_iff_mod_eq_zero] at hdvd
      exact this hdvd
    · intro ⟨hn2, h⟩ m hmem hmod
      obtain ⟨i, hi, hm⟩ := hmem
      have hms : m ≤ Nat.sqrt n := by
        rw [isqrt_eq_sqrt] at hi
        omega
      exact h m (by omega) hms (Nat.dvd_of_mod_eq_zero hmod)

theorem mem_primesInRange (lo hi p : Nat) :
    p ∈ primesInRange lo hi ↔ (lo ≤ p ∧ p < hi ∧ Nat.Prime p) := by
  unfold primesInRange
  rw [List.mem_filter]
  simp only [List.mem_range', decide_eq_true_eq]
  rw [is_prime_iff]
  constructor
  · intro ⟨⟨i, hi, hp⟩, hpr⟩
    exact ⟨by omega, by omega, hpr⟩
  · intro ⟨h1, h2, h3⟩
    exact ⟨⟨p - lo, by omega, by omega⟩, h3⟩

/-- One retry iteration's worth of external input to `shor_classical`:
the base `a` sampled by `random.randint(2, N - 2)` and the reply `r` the
period oracle `find_period_quantum(a, N, backend)` would give this
iteration (`none` models Python `None`, i.e. no usable estimate).  The
oracle reply is consulted only when the iteration reaches the oracle call. -/
structure Trial where
  a : Nat
  r : Option Nat

/-- The retry loop of `shor_attack.shor_classical`, one `Trial` consumed
per iteration.  Besides the result pair it returns two instrumentation
counters: the number of oracle queries made and the number of loop
iterations executed.  Branch structure and check order follow the source:
gcd shortcut, unusable/odd period, trivial residue `x ∈ {N-1, 1}`, then
the factor test `factor1 * factor2 == N`.  `factor2 = gcd(x - 1, N)` is
computed over `Int` because `x - 1` is a Python integer that the source
does not clamp at zero. -/
def shorLoop (N : Nat) : List Trial → (Option Nat × Option Nat) × Nat × Nat
  | [] => ((none, none), 0, 0)
  | t :: ts =>
    let g := math_gcd t.a N
    if g ≠ 1 then ((some g, none), 0, 1)
    else
      match t.r with
      | none =>
        let rest := shorLoop N ts
        (rest.1, rest.2.1 + 1, rest.2.2 + 1)
      | some r =>
        if r % 2 ≠ 0 then
          let rest := shorLoop N ts
          (rest.1, rest.2.1 + 1, rest.2.2 + 1)
        else
          let x := t.a ^ (r / 2) % N
          if x = N - 1 ∨ x = 1 then
            let rest := shorLoop N ts
            (rest.1, rest.2.1 + 1, rest.2.2 + 1)
          else
            let factor1 := math_gcd (x + 1) N
            let factor2 := int_gcd ((x : Int) - 1) (N : Int)
            if factor1 * factor2 = N then ((some factor1, some factor2), 1, 1)
            else
              let rest := shorLoop N ts
              (rest.1, rest.2.1 + 1, rest.2.2 + 1)

/-- Embedding of `shor_attack.shor_classical`: trivial even shortcut
(`return 2, None` before any simulator or oracle use), then the retry
loop, then `(None, None)` on exhaustion.  `retries` is the length of
`trials`. -/
def shor_classical (N : Nat) (trials : List Trial) : Option Nat × Option Nat :=
  if N % 2 = 0 then (some 2, none) else (shorLoop N trials).1

/-- Number of period-oracle queries a `shor_classical` run performs. -/
def shorQueries (N : Nat) (trials : List Trial) : Nat :=
  if N % 2 = 0 then 0 else (shorLoop N trials).2.1

/-- Number of retry-loop iterations a `shor_classical` run executes. -/
def shorIters (N : Nat) (trials : List Trial) : Nat :=
  if N % 2 = 0 then 0 else (shorLoop N trials).2.2

/-- Failure mode of the embedded `decrypt_attack`: `factorizationFailed`
models the `RuntimeError` raised when `shor_classical` returned no usable
first factor (the spec calls this case `FactorizationFailed`). -/
inductive AttackError where
  | factorizationFailed
deriving DecidableEq

/-- Embedding of `shor_attack.decrypt_attack`: run `shor_classical`; raise
if the first factor is falsy (`None` or `0`, both mapped to `0` here);
derive the second factor as `N // p` when it is falsy; reconstruct
`d = modinv(e, (p - 1) * (q - 1))` and return `(p, q, d)`.  No error is
raised when `modinv` returns `None`: the `None` is returned as `d`.
(When the derived `q` is `0`, Python computes a negative totient and
`modinv` over the then-empty `range(2, m)` returns `None`; the `Nat`
totient `0` likewise makes `modinv` return `none`.) -/
def decrypt_attack (N e : Nat) (trials : List Trial) :
    Except AttackError (Nat × Nat × Option Nat) :=
  let res := shor_classical N trials
  let factored_p := res.1.getD 0
  if factored_p = 0 then .error .factorizationFailed
  else
    let q0 := res.2.getD 0
    let factored_q := if q0 = 0 then N / factored_p else q0
    let phi_factored := (factored_p - 1) * (factored_q - 1)
    .ok (factored_p, factored_q, modinv e phi_factored)


theorem random_choice_mem (l : List Nat) (i x : Nat) (h : random_choice l i = some x) :
    x ∈ l :=
  List.get?_mem h

theorem pow_fermat_cycle (p : Nat) (hp : Nat.Prime p) (a m : Nat) :
    m ^ ((p - 1) * a + 1) ≡ m [MOD p] := by
  by_cases hdvd : p ∣ m
  · have h0 : m ≡ 0 [MOD p] := Nat.modEq_zero_iff_dvd.mpr hdvd
    calc m ^ ((p - 1) * a + 1)
        ≡ 0 ^ ((p - 1) * a + 1) [MOD p] := h0.pow _
      _ = 0 := by rw [zero_pow]; omega
      _ ≡ m [MOD p] := h0.symm
  · have hco : Nat.Coprime m p := Nat.Coprime.symm (hp.coprime_iff_not_dvd.mpr hdvd)
    have he : m ^ Nat.totient p ≡ 1 [MOD p] := Nat.ModEq.pow_totient hco
    rw [Nat.totient_prime hp] at he
    calc m ^ ((p - 1) * a + 1)
        = (m ^ (p - 1)) ^ a * m := by rw [← pow_mul, ← pow_succ]
      _ ≡ 1 ^ a * m [MOD p] := ((he.pow a).mul_right m)
      _ = m := by rw [one_pow, one_mul]

theorem rsa_pow_roundtrip (p q k m : Nat) (hp : Nat.Prime p) (hq : Nat.Prime q)
    (hne : p ≠ q) (hk : k % ((p - 1) * (q - 1)) = 1) (hm : m < p * q) :
    m ^ k % (p * q) = m := by
  have hp2 := hp.two_le
  have hq2 := hq.two_le
  have hphi1 : 1 ≤ (p - 1) * (q - 1) :=
    Nat.one_le_iff_ne_zero.mpr (Nat.mul_ne_zero (by omega) (by omega))
  have hphi2 : 2 ≤ (p - 1) * (q - 1) := by
    rcases Nat.lt_or_ge ((p - 1) * (q - 1)) 2 with hlt | hge
    · have : (p - 1) * (q - 1) = 1 := by omega
      rw [this, Nat.mod_one] at hk
      omega
    · exact hge
  have hk1 : 1 ≤ k := by
    rcases Nat.eq_zero_or_pos k with h0 | h1
    · rw [h0, Nat.zero_mod] at hk; omega
    · exact h1
  have hmod : k ≡ 1 [MOD (p - 1) * (q - 1)] := by
    show k % _ = 1 % _
    rw [hk, Nat.mod_eq_of_lt (by omega)]
  have hstep : ∀ t : Nat, Nat.Prime t → (t - 1) ∣ (p - 1) * (q - 1) →
      m ^ k ≡ m [MOD t] := by
    intro t ht hdvd
    have hkt : k ≡ 1 [MOD t - 1] := hmod.of_dvd hdvd
    have hdk : (t - 1) ∣ k - 1 := (Nat.modEq_iff_dvd' hk1).mp hkt.symm
    obtain ⟨a, ha⟩ := hdk
    have hka : k = (t - 1) * a + 1 := by omega
    rw [hka]
    exact pow_fermat_cycle t ht a m
  have h1 : m ^ k ≡ m [MOD p] := hstep p hp (Dvd.intro _ rfl)
  have h2 : m ^ k ≡ m [MOD q] := hstep q hq (Dvd.intro_left _ rfl)
  have hcop : Nat.Coprime p q := (Nat.coprime_primes hp hq).mpr hne
  have hpq : m ^ k ≡ m [MOD p * q] :=
    (Nat.modEq_and_modEq_iff_modEq_mul hcop).mp ⟨h1, h2⟩
  calc m ^ k % (p * q) = m % (p * q) := hpq
    _ = m := Nat.mod_eq_of_lt hm

theorem generate_rsa_key_ok (lo hi i j fuel n e : Nat) (dOpt : Option Nat)
    (h : generate_rsa_key lo hi i j fuel = .ok (n, e, dOpt)) :
    ∃ p q, p ∈ primesInRange lo hi ∧ q ∈ primesInRange lo hi ∧ q ≠ p ∧
      n = p * q ∧ dOpt = modinv e ((p - 1) * (q - 1)) := by
  unfold generate_rsa_key rsa_from_primes at h
  simp only [] at h
  split at h
  · cases h
  · rename_i p hc1
    split at h
    · cases h
    · rename_i q hc2
      split at h
      · cases h
      · rename_i e' hc3
        simp only [Except.ok.injEq, Prod.mk.injEq] at h
        obtain ⟨h1, h2, h3⟩ := h
        have hpmem := random_choice_mem _ _ _ hc1
        have hqmem' := random_choice_mem _ _ _ hc2
        rw [List.mem_filter] at hqmem'
        obtain ⟨hqmem, hqp'⟩ := hqmem'
        have hqp : q ≠ p := by simpa using hqp'
        exact ⟨p, q, hpmem, hqmem, hqp, h1.symm, by rw [← h2, ← h3]⟩

theorem shorLoop_nil (N : Nat) : shorLoop N [] = ((none, none), 0, 0) := rfl

theorem shorLoop_gcd_hit (N : Nat) (t : Trial) (ts : List Trial)
    (h : math_gcd t.a N ≠ 1) :
    shorLoop N (t :: ts) = ((some (math_gcd t.a N), none), 0, 1) := by
  simp only [shorLoop]
  rw [if_pos h]

theorem shorLoop_skip_none (N : Nat) (t : Trial) (ts : List Trial)
    (hg : math_gcd t.a N = 1) (hr : t.r = none) :
    shorLoop N (t :: ts) =
      ((shorLoop N ts).1, (shorLoop N ts).2.1 + 1, (shorLoop N ts).2.2 + 1) := by
  simp only [shorLoop]
  rw [if_neg (by simp [hg]), hr]

theorem shorLoop_skip_odd (N : Nat) (t : Trial) (ts : List Trial) (r : Nat)
    (hg : math_gcd t.a N = 1) (hr : t.r = some r) (hodd : r % 2 ≠ 0) :
    shorLoop N (t :: ts) =
      ((shorLoop N ts).1, (shorLoop N ts).2.1 + 1, (shorLoop N ts).2.2 + 1) := by
  simp only [shorLoop]
  rw [if_neg (by simp [hg]), hr]
  simp only []
  rw [if_pos hodd]

theorem shorLoop_skip_trivial (N : Nat) (t : Trial) (ts : List Trial) (r : Nat)
    (hg : math_gcd t.a N = 1) (hr : t.r = some r) (heven : r % 2 = 0)
    (htriv : t.a ^ (r / 2) % N = N - 1 ∨ t.a ^ (r / 2) % N = 1) :
    shorLoop N (t :: ts) =
      ((shorLoop N ts).1, (shorLoop N ts).2.1 + 1, (shorLoop N ts).2.2 + 1) := by
  simp only [shorLoop]
  rw [if_neg (by simp [hg]), hr]
  simp only []
  rw [if_neg (by omega), if_pos htriv]

theorem shorLoop_success (N : Nat) (t : Trial) (ts : List Trial) (r : Nat)
    (hg : math_gcd t.a N = 1) (hr : t.r = some r) (heven : r % 2 = 0)
    (htriv : ¬(t.a ^ (r / 2) % N = N - 1 ∨ t.a ^ (r / 2) % N = 1))
    (hfac : math_gcd (t.a ^ (r / 2) % N + 1) N *
        int_gcd ((t.a ^ (r / 2) % N : Nat) - 1 : Int) (N : Int) = N) :
    shorLoop N (t :: ts) =
      ((some (math_gcd (t.a ^ (r / 2) % N + 1) N),
        some (int_gcd ((t.a ^ (r / 2) % N : Nat) - 1 : Int) (N : Int))), 1, 1) := by
  simp only [shorLoop]
  rw [if_neg (by simp [hg]), hr]
  simp only []
  rw [if_neg (by omega), if_neg htriv, if_pos hfac]

theorem shorLoop_skip_badfac (N : Nat) (t : Trial) (ts : List Trial) (r : Nat)
    (hg : math_gcd t.a N = 1) (hr : t.r = some r) (heven : r % 2 = 0)
    (htriv : ¬(t.a ^ (r / 2) % N = N - 1 ∨ t.a ^ (r / 2) % N = 1))
    (hfac : math_gcd (t.a ^ (r / 2) % N + 1) N *
        int_gcd ((t.a ^ (r / 2) % N : Nat) - 1 : Int) (N : Int) ≠ N) :
    shorLoop N (t :: ts) =
      ((shorLoop N ts).1, (shorLoop N ts).2.1 + 1, (shorLoop N ts).2.2 + 1) := by
  simp only [shorLoop]
  rw [if_neg (by simp [hg]), hr]
  simp only []
  rw [if_neg (by omega), if_neg htriv, if_neg hfac]

theorem shorLoop_case_split (N : Nat) (t : Trial) (ts : List Trial)
    (motive : (Option Nat × Option Nat) × Nat × Nat → Prop)
    (hhit : math_gcd t.a N ≠ 1 → motive ((some (math_gcd t.a N), none), 0, 1))
    (hskip : motive ((shorLoop N ts).1, (shorLoop N ts).2.1 + 1, (shorLoop N ts).2.2 + 1))
    (hsucc : ∀ r : Nat, math_gcd t.a N = 1 → t.r = some r → r % 2 = 0 →
      ¬(t.a ^ (r / 2) % N = N - 1 ∨ t.a ^ (r / 2) % N = 1) →
      math_gcd (t.a ^ (r / 2) % N + 1) N *
        int_gcd ((t.a ^ (r / 2) % N : Nat) - 1 : Int) (N : Int) = N →
      motive ((some (math_gcd (t.a ^ (r / 2) % N + 1) N),
        some (int_gcd ((t.a ^ (r / 2) % N : Nat) - 1 : Int) (N : Int))), 1, 1)) :
    motive (shorLoop N (t :: ts)) := by
  by_cases hg : math_gcd t.a N = 1
  · cases hr : t.r with
    | none => rw [shorLoop_skip_none N t ts hg hr]; exact hskip
    | some r =>
      by_cases hodd : r % 2 = 0
      · by_cases htriv : t.a ^ (r / 2) % N = N - 1 ∨ t.a ^ (r / 2) % N = 1
        · rw [shorLoop_skip_trivial N t ts r hg hr hodd htriv]; exact hskip
        · by_cases hfac : math_gcd (t.a ^ (r / 2) % N + 1) N *
              int_gcd ((t.a ^ (r / 2) % N : Nat) - 1 : Int) (N : Int) = N
          · rw [shorLoop_success N t ts r hg hr hodd htriv hfac]
            exact hsucc r hg hr hodd htriv hfac
          · rw [shorLoop_skip_badfac N t ts r hg hr hodd htriv hfac]; exact hskip
      · rw [shorLoop_skip_odd N t ts r hg hr hodd]; exact hskip
  · rw [shorLoop_gcd_hit N t ts hg]; exact hhit hg

theorem shorLoop_counters_le (N : Nat) :
    ∀ trials : List Trial,
      (shorLoop N trials).2.1 ≤ trials.length ∧ (shorLoop N trials).2.2 ≤ trials.length := by
  intro trials
  induction trials with
  | nil => rw [shorLoop_nil]; exact ⟨Nat.le_refl 0, Nat.le_refl 0⟩
  | cons t ts ih =>
    apply shorLoop_case_split N t ts
      (fun res => res.2.1 ≤ (t :: ts).length ∧ res.2.2 ≤ (t :: ts).length)
    · intro _
      simp only [List.length_cons]
      omega
    · simp only [List.length_cons]
      omega
    · intro r _ _ _ _ _
      simp only [List.length_cons]
      omega

theorem shorLoop_all_rejected (N : Nat) :
    ∀ trials : List Trial, (∀ t ∈ trials, math_gcd t.a N = 1 ∧ t.r = none) →
      (shorLoop N trials).1 = (none, none) := by
  intro trials
  induction trials with
  | nil =>
    intro _
    rw [shorLoop_nil]
  | cons t ts ih =>
    intro h
    obtain ⟨hg, hr⟩ := h t (List.mem_cons_self t ts)
    rw [shorLoop_skip_none N t ts hg hr]
    exact ih fun u hu => h u (List.mem_cons_of_mem t hu)

theorem shorLoop_nontrivial_factors (N : Nat) (hN : 4 ≤ N) :
    ∀ trials : List Trial, (∀ t ∈ trials, 2 ≤ t.a ∧ t.a ≤ N - 2) →
      (∀ f, (shorLoop N trials).1.1 = some f → f ∣ N ∧ 1 < f ∧ f < N) ∧
      (∀ f1 f2, (shorLoop N trials).1 = (some f1, some f2) →
        f1 * f2 = N ∧ 1 < f1 ∧ f1 < N ∧ 1 < f2 ∧ f2 < N) := by
  intro trials
  induction trials with
  | nil =>
    intro _
    rw [shorLoop_nil]
    constructor
    · intro f hf
      simp at hf
    · intro f1 f2 hf
      simp at hf
  | cons t ts ih =>
    intro h
    obtain ⟨ha2, haN⟩ := h t (List.mem_cons_self t ts)
    apply shorLoop_case_split N t ts
      (fun res =>
        (∀ f, res.1.1 = some f → f ∣ N ∧ 1 < f ∧ f < N) ∧
        (∀ f1 f2, res.1 = (some f1, some f2) →
          f1 * f2 = N ∧ 1 < f1 ∧ f1 < N ∧ 1 < f2 ∧ f2 < N))
    · intro hg1
      rw [math_gcd_eq_gcd] at hg1
      constructor
      · intro f hf
        rw [math_gcd_eq_gcd] at hf
        cases hf
        have hdvdN : Nat.gcd t.a N ∣ N := Nat.gcd_dvd_right t.a N
        have hdvda : Nat.gcd t.a N ∣ t.a := Nat.gcd_dvd_left t.a N
        have hne0 : Nat.gcd t.a N ≠ 0 := by
          intro h0
          rw [Nat.gcd_eq_zero_iff] at h0
          omega
        have hlea : Nat.gcd t.a N ≤ t.a := Nat.le_of_dvd (by omega) hdvda
        exact ⟨hdvdN, by omega, by omega⟩
      · intro f1 f2 hf
        simp only [Prod.mk.injEq] at hf
        exact absurd hf.2 (by simp)
    · exact ih fun u hu => h u (List.mem_cons_of_mem t hu)
    · intro r hg1 hr heven htriv hfac
      rw [math_gcd_eq_gcd] at hg1
      have hN0 : 0 < N := by omega
      have hxlt : t.a ^ (r / 2) % N < N := Nat.mod_lt _ hN0
      have hx0 : t.a ^ (r / 2) % N ≠ 0 := by
        intro h0
        have hdvd : N ∣ t.a ^ (r / 2) := Nat.dvd_of_mod_eq_zero h0
        have hcop : Nat.gcd (t.a ^ (r / 2)) N = 1 :=
          Nat.Coprime.pow_left (r / 2) hg1
        have : N ∣ Nat.gcd (t.a ^ (r / 2)) N := Nat.dvd_gcd hdvd (dvd_refl N)
        rw [hcop] at this
        have := Nat.le_of_dvd (by omega) this
        omega
      have hx1 : t.a ^ (r / 2) % N ≠ N - 1 := fun hc => htriv (Or.inl hc)
      have hx2 : t.a ^ (r / 2) % N ≠ 1 := fun hc => htriv (Or.inr hc)
      have hxge : 2 ≤ t.a ^ (r / 2) % N := by omega
      have hxle : t.a ^ (r / 2) % N ≤ N - 2 := by omega
      rw [math_gcd_eq_gcd, int_gcd_sub_one _ _ (by omega)] at hfac
      have hf1dvd : Nat.gcd (t.a ^ (r / 2) % N + 1) N ∣ N :=
        Nat.gcd_dvd_right _ N
      have hf2dvd : Nat.gcd (t.a ^ (r / 2) % N - 1) N ∣ N :=
        Nat.gcd_dvd_right _ N
      have hf1le : Nat.gcd (t.a ^ (r / 2) % N + 1) N ≤ t.a ^ (r / 2) % N + 1 :=
        Nat.le_of_dvd (by omega) (Nat.gcd_dvd_left _ _)
      have hf2le : Nat.gcd (t.a ^ (r / 2) % N - 1) N ≤ t.a ^ (r / 2) % N - 1 :=
        Nat.le_of_dvd (by omega) (Nat.gcd_dvd_left _ _)
      have hf1lt : Nat.gcd (t.a ^ (r / 2) % N + 1) N < N := by omega
      have hf2lt : Nat.gcd (t.a ^ (r / 2) % N - 1) N < N := by omega
      have hf1gt : 1 < Nat.gcd (t.a ^ (r / 2) % N + 1) N := by
        rcases Nat.lt_or_ge (Nat.gcd (t.a ^ (r / 2) % N + 1) N) 2 with hlt | hge
        · interval_cases hg0 : Nat.gcd (t.a ^ (r / 2) % N + 1) N
          · simp at hfac; omega
          · simp at hfac; omega
        · exact hge
      have hf2gt : 1 < Nat.gcd (t.a ^ (r / 2) % N - 1) N := by
        rcases Nat.lt_or_ge (Nat.gcd (t.a ^ (r / 2) % N - 1) N) 2 with hlt | hge
        · interval_cases hg0 : Nat.gcd (t.a ^ (r / 2) % N - 1) N
          · simp at hfac; omega
          · simp at hfac; omega
        · exact hge
      constructor
      · intro f hf
        rw [math_gcd_eq_gcd] at hf
        cases hf
        exact ⟨hf1dvd, hf1gt, hf1lt⟩
      · intro f1 f2 hf
        rw [math_gcd_eq_gcd, int_gcd_sub_one _ _ (by omega)] at hf
        simp only [Prod.mk.injEq, Option.some.injEq] at hf
        obtain ⟨hfa, hfb⟩ := hf
        subst hfa
        subst hfb
        exact ⟨hfac, hf1gt, hf1lt, hf2gt, hf2lt⟩

theorem decrypt_attack_error_of_nofactors (N e : Nat) (trials : List Trial)
    (h : (shor_classical N trials).1 = none) :
    decrypt_attack N e trials = .error .factorizationFailed := by
  unfold decrypt_attack
  simp [h]

theorem decrypt_attack_ok_shape (N e : Nat) (trials : List Trial) (p : Nat)
    (hp : (shor_classical N trials).1 = some p) (hp0 : p ≠ 0) :
    decrypt_attack N e trials =
      .ok (p,
        (if (shor_classical N trials).2.getD 0 = 0 then N / p
         else (shor_classical N trials).2.getD 0),
        modinv e ((p - 1) *
          ((if (shor_classical N trials).2.getD 0 = 0 then N / p
            else (shor_classical N trials).2.getD 0) - 1))) := by
  unfold decrypt_attack
  simp only [hp, Option.getD_some]
  rw [if_neg hp0]

theorem decrypt_attack_ok_inv (N e : Nat) (trials : List Trial) (f1 f2 : Nat)
    (d' : Option Nat) (h : decrypt_attack N e trials = .ok (f1, f2, d')) :
    d' = modinv e ((f1 - 1) * (f2 - 1)) := by
  unfold decrypt_attack at h
  simp only [] at h
  split at h
  · cases h
  · simp only [Except.ok.injEq, Prod.mk.injEq] at h
    obtain ⟨h1, h2, h3⟩ := h
    rw [← h1, ← h2, h3]

/-- C7: for every even `N` and any retry budget (trial list), `shor_classical`
returns `(2, None)` immediately and performs no period-oracle query. -/
theorem claim_even_shortcut (N : Nat) (heven : N % 2 = 0) (trials : List Trial) :
    shor_classical N trials = (some 2, none) ∧ shorQueries N trials = 0 := by
  unfold shor_classical shorQueries
  rw [if_pos heven, if_pos heven]
  exact ⟨rfl, rfl⟩

theorem claim_even_shortcut_witness :
    shor_classical 4 [⟨2, some 2⟩] = (some 2, none) ∧ shorQueries 4 [⟨2, some 2⟩] = 0 :=
  claim_even_shortcut 4 (by decide) [⟨2, some 2⟩]

/-- C8: for every `N` and any sequence of sampled bases and oracle replies,
`shor_classical` terminates (it is a total function of its inputs), executes
at most `retries` loop iterations and makes at most `retries` oracle
queries, where `retries` is the length of the trial list. -/
theorem claim_retry_budget_bound (N : Nat) (trials : List Trial) :
    shorQueries N trials ≤ trials.length ∧ shorIters N trials ≤ trials.length := by
  unfold shorQueries shorIters
  by_cases h : N % 2 = 0
  · rw [if_pos h, if_pos h]
    exact ⟨Nat.zero_le _, Nat.zero_le _⟩
  · rw [if_neg h, if_neg h]
    exact shorLoop_counters_le N trials

/-- C3: for every odd `N`, if in every iteration the sampled base is coprime
to `N` and the oracle replies `None`, then `shor_classical` returns
`(None, None)` and `decrypt_attack` fails (the `RuntimeError` raise, which
the spec calls `FactorizationFailed`) instead of returning a result. -/
theorem claim_all_unavailable (N e : Nat) (hodd : N % 2 = 1) (trials : List Trial)
    (h : ∀ t ∈ trials, math_gcd t.a N = 1 ∧ t.r = none) :
    shor_classical N trials = (none, none) ∧
    decrypt_attack N e trials = .error .factorizationFailed := by
  have h1 : shor_classical N trials = (none, none) := by
    unfold shor_classical
    rw [if_neg (by omega)]
    exact shorLoop_all_rejected N trials h
  refine ⟨h1, decrypt_attack_error_of_nofactors N e trials ?_⟩
  rw [h1]

theorem claim_all_unavailable_witness :
    shor_classical 15 [⟨4, none⟩, ⟨7, none⟩] = (none, none) ∧
    decrypt_attack 15 7 [⟨4, none⟩, ⟨7, none⟩] = .error .factorizationFailed :=
  claim_all_unavailable 15 7 (by decide) [⟨4, none⟩, ⟨7, none⟩] (by decide)

/-- C5 counterexample: with `N = 15`, `e = 1` and a first trial whose base 5
shares a factor with 15, the factorizer returns the non-trivial factor 5,
the derived totient is `4 * 2 = 8`, no modular inverse of 1 exists in
`[2, 8)`, and yet `decrypt_attack` returns `(5, 3, None)` as a success
value instead of failing. -/
theorem claim_reconstruction_failure_counterexample :
    modinv 1 8 = none ∧ decrypt_attack 15 1 [⟨5, none⟩] = .ok (5, 3, none) :=
  ⟨rfl, rfl⟩

/-- C5 (amended): for every `N`, `e` and trial sequence for which the
factorizer returns a non-trivial first factor `p`, `decrypt_attack`
derives `q` (as `N / p` when the second factor is falsy), computes the
totient `(p - 1) * (q - 1)`, and when no modular inverse of `e` exists it
returns `(p, q, None)` — the missing exponent is passed through as `None`
rather than raising a reconstruction error. -/
theorem claim_reconstruction_returns_none_d (N e : Nat) (trials : List Trial) (p q : Nat)
    (hp : (shor_classical N trials).1 = some p) (hp0 : p ≠ 0)
    (hq : q = if (shor_classical N trials).2.getD 0 = 0 then N / p
          else (shor_classical N trials).2.getD 0)
    (hnoinv : modinv e ((p - 1) * (q - 1)) = none) :
    decrypt_attack N e trials = .ok (p, q, none) := by
  rw [decrypt_attack_ok_shape N e trials p hp hp0, ← hq, hnoinv]

theorem claim_reconstruction_returns_none_d_witness :
    decrypt_attack 21 1 [⟨7, none⟩] = .ok (7, 3, none) :=
  claim_reconstruction_returns_none_d 21 1 [⟨7, none⟩] 7 3 rfl (by decide) (by decide) rfl

/-- C6: for a key built by `generate_rsa_key` from true prime factors `p`
and `q`, `modinv(e, (p-1)*(q-1))` is exactly the original private
exponent, and whenever `decrypt_attack` returns the true factor pair (in
either order) the reconstructed exponent equals the original one. -/
theorem claim_true_factors_reconstruct_d (p q fuel N e : Nat) (dOpt : Option Nat)
    (_hp : Nat.Prime p) (_hq : Nat.Prime q) (_hpq : p ≠ q)
    (hgen : rsa_from_primes p q fuel = .ok (N, e, dOpt)) :
    modinv e ((p - 1) * (q - 1)) = dOpt ∧
    ∀ trials f1 f2 d', decrypt_attack N e trials = .ok (f1, f2, d') →
      (f1 = p ∧ f2 = q) ∨ (f1 = q ∧ f2 = p) → d' = dOpt := by
  have hshape : dOpt = modinv e ((p - 1) * (q - 1)) := by
    unfold rsa_from_primes at hgen
    simp only [] at hgen
    split at hgen
    · cases hgen
    · simp only [Except.ok.injEq, Prod.mk.injEq] at hgen
      obtain ⟨h1, h2, h3⟩ := hgen
      rw [← h3, ← h2]
  refine ⟨hshape.symm, ?_⟩
  intro trials f1 f2 d' hda hperm
  have hd' := decrypt_attack_ok_inv N e trials f1 f2 d' hda
  rcases hperm with ⟨ha, hb⟩ | ⟨ha, hb⟩
  · rw [ha, hb] at hd'
    rw [hd', hshape]
  · rw [ha, hb] at hd'
    rw [hd', hshape, Nat.mul_comm]

theorem claim_true_factors_reconstruct_d_witness : modinv 7 120 = some 103 :=
  (claim_true_factors_reconstruct_d 11 13 3 143 7 (some 103)
    (by norm_num) (by norm_num) (by decide) rfl).1

/-- C9: when the range `[primes_lower, primes_upper)` holds fewer than two
(necessarily distinct) primes, `generate_rsa_key` fails — the empty-list
`random.choice` error the spec calls `ConfigurationError` — instead of
returning a key triple, for every random draw and fuel. -/
theorem claim_insufficient_primes (lo hi i j fuel : Nat)
    (h : (primesInRange lo hi).length < 2) :
    generate_rsa_key lo hi i j fuel = .error .choiceFromEmptyList := by
  rcases hlist : primesInRange lo hi with _ | ⟨p0, tail⟩
  · simp [generate_rsa_key, hlist, random_choice]
  · have htail : tail = [] := by
      rw [hlist] at h
      simp only [List.length_cons] at h
      exact List.eq_nil_of_length_eq_zero (by omega)
    subst htail
    simp [generate_rsa_key, hlist, random_choice, Nat.mod_one]

theorem claim_insufficient_primes_witness :
    generate_rsa_key 13 14 0 0 5 = .error .choiceFromEmptyList :=
  claim_insufficient_primes 13 14 0 0 5 (by decide)

/-- C10: for every `N ≥ 4`, any retry budget and any trial sequence whose
sampled bases lie in the interval `[2, N-2]` drawn by `random.randint`,
a returned first factor is always a non-trivial divisor of `N`, and a
returned pair multiplies to exactly `N` with both factors strictly
between 1 and `N`. -/
theorem claim_factor_invariants (N : Nat) (hN : 4 ≤ N) (trials : List Trial)
    (hb : ∀ t ∈ trials, 2 ≤ t.a ∧ t.a ≤ N - 2) :
    (∀ f, (shor_classical N trials).1 = some f → f ∣ N ∧ 1 < f ∧ f < N) ∧
    (∀ f1 f2, shor_classical N trials = (some f1, some f2) →
      f1 * f2 = N ∧ 1 < f1 ∧ f1 < N ∧ 1 < f2 ∧ f2 < N) := by
  unfold shor_classical
  by_cases heven : N % 2 = 0
  · rw [if_pos heven]
    constructor
    · intro f hf
      simp only [Option.some.injEq] at hf
      subst hf
      exact ⟨Nat.dvd_of_mod_eq_zero heven, by omega, by omega⟩
    · intro f1 f2 hf
      simp only [Prod.mk.injEq] at hf
      exact absurd hf.2 (by simp)
  · rw [if_neg heven]
    exact shorLoop_nontrivial_factors N hN trials hb

theorem claim_factor_invariants_witness :
    5 * 3 = 15 ∧ 1 < 5 ∧ 5 < 15 ∧ 1 < 3 ∧ 3 < 15 := by
  have h := claim_factor_invariants 15 (by omega) [⟨7, some 4⟩] (by decide)
  exact h.2 5 3 (by decide)

/-- C1: for every odd `N`, in a retry iteration whose sampled base `a` is
coprime to `N`, whose oracle reply is an even period `r`, and whose
residue `x = a^(r/2) mod N` is neither 1 nor `N-1`: if
`gcd(x+1, N) * gcd(x-1, N) = N` then `shor_classical` returns
`(gcd(x+1, N), gcd(x-1, N))` as terminal success in that same iteration —
in particular the product of the returned pair is `N`, within one retry. -/
theorem claim_shor_success_terminal (N : Nat) (hodd : N % 2 = 1) (t : Trial)
    (rest : List Trial) (r : Nat) (hg : math_gcd t.a N = 1) (hr : t.r = some r)
    (heven : r % 2 = 0)
    (hx1 : t.a ^ (r / 2) % N ≠ 1) (hx2 : t.a ^ (r / 2) % N ≠ N - 1)
    (hfac : math_gcd (t.a ^ (r / 2) % N + 1) N *
      math_gcd (t.a ^ (r / 2) % N - 1) N = N) :
    shor_classical N (t :: rest) =
      (some (math_gcd (t.a ^ (r / 2) % N + 1) N),
       some (math_gcd (t.a ^ (r / 2) % N - 1) N)) ∧
    math_gcd (t.a ^ (r / 2) % N + 1) N *
      math_gcd (t.a ^ (r / 2) % N - 1) N = N := by
  by_cases hN1 : N = 1
  · subst hN1
    exact absurd (Nat.mod_one (t.a ^ (r / 2))) hx2
  · have hN2 : 2 ≤ N := by omega
    have hx0 : t.a ^ (r / 2) % N ≠ 0 := by
      intro h0
      have hdvd : N ∣ t.a ^ (r / 2) := Nat.dvd_of_mod_eq_zero h0
      have hg1 : Nat.gcd t.a N = 1 := by rw [← math_gcd_eq_gcd]; exact hg
      have hcop : Nat.gcd (t.a ^ (r / 2)) N = 1 := Nat.Coprime.pow_left (r / 2) hg1
      have hN1' : N ∣ Nat.gcd (t.a ^ (r / 2)) N := Nat.dvd_gcd hdvd (dvd_refl N)
      rw [hcop] at hN1'
      have := Nat.le_of_dvd (by omega) hN1'
      omega
    have hbridge : int_gcd ((t.a ^ (r / 2) % N : Nat) - 1 : Int) (N : Int) =
        math_gcd (t.a ^ (r / 2) % N - 1) N := by
      rw [int_gcd_sub_one _ _ (by omega), math_gcd_eq_gcd]
    have hfac' : math_gcd (t.a ^ (r / 2) % N + 1) N *
        int_gcd ((t.a ^ (r / 2) % N : Nat) - 1 : Int) (N : Int) = N := by
      rw [hbridge]; exact hfac
    have htriv : ¬(t.a ^ (r / 2) % N = N - 1 ∨ t.a ^ (r / 2) % N = 1) := by
      intro hc
      rcases hc with hc | hc
      · exact hx2 hc
      · exact hx1 hc
    constructor
    · unfold shor_classical
      rw [if_neg (by omega)]
      rw [shorLoop_success N t rest r hg hr heven htriv hfac']
      rw [hbridge]
    · exact hfac

theorem claim_shor_success_terminal_witness :
    shor_classical 15 [⟨7, some 4⟩] = (some 5, some 3) ∧ 5 * 3 = 15 := by
  have h := claim_shor_success_terminal 15 (by decide) ⟨7, some 4⟩ [] 4
    (by decide) rfl (by decide) (by decide) (by decide) (by decide)
  constructor
  · rw [h.1]
    rfl
  · exact h.2

/-- C4 counterexample: `gcd(1, 5) = 1`, yet `modinv(1, 5)` returns `None`:
the true inverse of 1 modulo 5 is 1, which lies outside the searched range
`[2, 5)`, so coprimality alone does not make `modinv` return a value. -/
theorem claim_modinv_spec_counterexample : Nat.gcd 1 5 = 1 ∧ modinv 1 5 = none :=
  ⟨Nat.gcd_one_left 5, rfl⟩

/-- C4 (amended): `modinv(a, m)` returns the smallest `d` in `[2, m)` with
`(a*d) mod m = 1` when one exists and `None` after exhausting the range;
it returns a value in `[2, m)` satisfying the inverse equation whenever
`gcd(a, m) = 1`, `m > 1` and `a mod m ≠ 1` (when `a ≡ 1 (mod m)` the unique
inverse is 1, outside the searched range); and it returns `None` whenever
`gcd(a, m) ≠ 1`. -/
theorem claim_modinv_spec (a m : Nat) :
    (∀ d, modinv a m = some d →
      2 ≤ d ∧ d < m ∧ (a * d) % m = 1 ∧
        ∀ d', 2 ≤ d' → d' < d → (a * d') % m ≠ 1) ∧
    (modinv a m = none → ∀ d', 2 ≤ d' → d' < m → (a * d') % m ≠ 1) ∧
    (1 < m → Nat.gcd a m = 1 → a % m ≠ 1 →
      ∃ d, modinv a m = some d ∧ 2 ≤ d ∧ d < m ∧ (a * d) % m = 1) ∧
    (Nat.gcd a m ≠ 1 → modinv a m = none) := by
  have hsome : ∀ d, modinv a m = some d →
      2 ≤ d ∧ d < m ∧ (a * d) % m = 1 ∧
        ∀ d', 2 ≤ d' → d' < d → (a * d') % m ≠ 1 := by
    intro d hd
    unfold modinv at hd
    obtain ⟨h1, h2, h3, h4⟩ := modinvFrom_eq_some a m (m - 2) 2 d hd
    exact ⟨h2, by omega, h1, fun d' hd1 hd2 => h4 d' hd1 hd2⟩
  refine ⟨hsome, ?_, ?_, ?_⟩
  · intro hnone d' h1 h2
    unfold modinv at hnone
    exact modinvFrom_eq_none a m (m - 2) 2 hnone d' h1 (by omega)
  · intro hm hco ha1
    have hm0 : 0 < m := by omega
    have htot : 0 < Nat.totient m := Nat.totient_pos.mpr hm0
    have heuler : a ^ Nat.totient m ≡ 1 [MOD m] := Nat.ModEq.pow_totient hco
    have hprod : (a * (a ^ (Nat.totient m - 1) % m)) % m = 1 := by
      have h1 : a * (a ^ (Nat.totient m - 1) % m) ≡
          a * a ^ (Nat.totient m - 1) [MOD m] :=
        (Nat.mod_modEq _ m).mul_left a
      have h2 : a * a ^ (Nat.totient m - 1) = a ^ Nat.totient m := by
        rw [mul_comm, ← pow_succ]
        congr 1
        omega
      calc (a * (a ^ (Nat.totient m - 1) % m)) % m
          = (a * a ^ (Nat.totient m - 1)) % m := h1
        _ = a ^ Nat.totient m % m := by rw [h2]
        _ = 1 % m := heuler
        _ = 1 := Nat.mod_eq_of_lt (by omega)
    have hd0lt : a ^ (Nat.totient m - 1) % m < m := Nat.mod_lt _ hm0
    have hd0ne0 : a ^ (Nat.totient m - 1) % m ≠ 0 := by
      intro h0
      rw [h0, Nat.mul_zero, Nat.zero_mod] at hprod
      omega
    have hd0ne1 : a ^ (Nat.totient m - 1) % m ≠ 1 := by
      intro h1
      rw [h1, Nat.mul_one] at hprod
      exact ha1 hprod
    have hex := modinvFrom_isSome a m (m - 2) 2 (a ^ (Nat.totient m - 1) % m)
      (by omega) (by omega) hprod
    obtain ⟨d, hd⟩ := Option.isSome_iff_exists.mp hex
    have hd' : modinv a m = some d := hd
    obtain ⟨hh1, hh2, hh3, _⟩ := hsome d hd'
    exact ⟨d, hd', hh1, hh2, hh3⟩
  · intro hgcd
    cases hopt : modinv a m with
    | none => rfl
    | some d =>
      exfalso
      obtain ⟨_, _, h3, _⟩ := hsome d hopt
      have hq := Nat.div_add_mod (a * d) m
      have hga : Nat.gcd a m ∣ a * d := (Nat.gcd_dvd_left a m).mul_right d
      have hgm : Nat.gcd a m ∣ m * (a * d / m) := (Nat.gcd_dvd_right a m).mul_right _
      have hone : Nat.gcd a m ∣ 1 := by
        have : a * d - m * (a * d / m) = 1 := by omega
        rw [← this]
        exact Nat.dvd_sub' hga hgm
      exact hgcd (Nat.dvd_one.mp hone)

theorem claim_modinv_spec_witness :
    (modinv 3 7).isSome = true ∧ modinv 2 4 = none := by
  constructor
  · obtain ⟨d, hd, _⟩ := (claim_modinv_spec 3 7).2.2.1 (by omega) (by norm_num) (by decide)
    rw [hd]
    rfl
  · exact (claim_modinv_spec 2 4).2.2.2 (by norm_num)

/-- C2 counterexample: `generate_rsa_key(2, 4)` can pick `p = 2`, `q = 3`,
giving `phi = 2` and `e = 3`; `modinv(3, 2)` searches the empty range
`range(2, 2)` and returns `None`, so the returned triple is `(6, 3, None)`.
Decrypting with this `d` is impossible (`pow(c, None, n)` raises), so the
round-trip law fails for this returned key triple. -/
theorem claim_rsa_roundtrip_counterexample :
    generate_rsa_key 2 4 0 0 1 = .ok (6, 3, none) ∧ modinv 3 2 = none :=
  ⟨rfl, rfl⟩

/-- C2 (amended): for every key triple `(n, e, d)` returned by
`generate_rsa_key` whose private exponent is an actual number (`d` is not
`None`), and every message all of whose character code points are below
`n`, decrypting the encryption returns the message, in order. -/
theorem claim_rsa_roundtrip (lo hi i j fuel n e d : Nat)
    (hgen : generate_rsa_key lo hi i j fuel = .ok (n, e, some d))
    (message : List Nat) (hmsg : ∀ m ∈ message, m < n) :
    decrypt_message (encrypt_message message n e) n d = message := by
  obtain ⟨p, q, hpmem, hqmem, hqp, hn, hd⟩ :=
    generate_rsa_key_ok lo hi i j fuel n e (some d) hgen
  rw [mem_primesInRange] at hpmem hqmem
  have hp : Nat.Prime p := hpmem.2.2
  have hq : Nat.Prime q := hqmem.2.2
  have hd' : modinvFrom e ((p - 1) * (q - 1)) ((p - 1) * (q - 1) - 2) 2 = some d :=
    hd.symm
  have hed : (e * d) % ((p - 1) * (q - 1)) = 1 :=
    (modinvFrom_eq_some e ((p - 1) * (q - 1)) _ 2 d hd').1
  subst hn
  unfold decrypt_message encrypt_message
  rw [List.map_map]
  have hpt : ∀ m ∈ message, ((fun c => c ^ d % (p * q)) ∘ fun c => c ^ e % (p * q)) m
      = id m := by
    intro m hm
    have hmlt := hmsg m hm
    simp only [Function.comp_apply, id_eq]
    have h1 : (m ^ e % (p * q)) ^ d ≡ (m ^ e) ^ d [MOD p * q] :=
      (Nat.mod_modEq (m ^ e) (p * q)).pow d
    calc (m ^ e % (p * q)) ^ d % (p * q)
        = (m ^ e) ^ d % (p * q) := h1
      _ = m ^ (e * d) % (p * q) := by rw [← pow_mul]
      _ = m := rsa_pow_roundtrip p q (e * d) m hp hq (Ne.symm hqp) hed hmlt
  rw [List.map_congr_left hpt, List.map_id]

theorem claim_rsa_roundtrip_witness :
    decrypt_message (encrypt_message [65] 143 7) 143 103 = [65] :=
  claim_rsa_roundtrip 10 50 0 0 3 143 7 103 rfl [65] (by decide)
